import Mathlib

/-!
Verification of the path-resolution engine and configuration build of the
go-vanity-cloud-function repository, shallowly embedded in Lean.

Strings are modelled as lists of characters (`Str`); Go's byte-wise
lexicographic comparison on UTF-8 strings coincides with code-point
lexicographic comparison, which `lexLt` implements.
-/

/-- Strings, as character lists. -/
abbrev Str := List Char

/-- Conversion from a Lean string literal. -/
def str (s : String) : Str := s.data

/-- The path separator `"/"`. -/
def slash : Str := ['/']

/-- Go's `a < b` on strings: lexicographic comparison. -/
def lexLt : Str → Str → Bool
  | [], [] => false
  | [], _ :: _ => true
  | _ :: _, [] => false
  | a :: as, b :: bs => if a < b then true else if b < a then false else lexLt as bs

/-- Go's `strings.TrimPrefix`: remove `pre` from the front of `s` when present. -/
def trimPref (s pre : Str) : Str :=
  if pre.isPrefixOf s then s.drop pre.length else s

/-- Go's `strings.TrimSuffix`: remove `suf` from the end of `s` when present. -/
def trimSuffix (s suf : Str) : Str :=
  if suf.isSuffixOf s then s.take (s.length - suf.length) else s

/-- One configured redirect entry (`pathConfig` in the source). -/
structure pathConfig where
  path : Str
  repo : Str
  display : Str
  vcs : Str
deriving DecidableEq, Repr

/-- Zero value used for out-of-range indexing (never reached on the Go side). -/
def dfltPC : pathConfig := ⟨[], [], [], []⟩

/-- The stored path at index `k` of the entry set. -/
def getP (pset : List pathConfig) (k : Nat) : Str := (pset.getD k dfltPC).path

/-- Go's `sort.Search` loop (`i, j := 0, n; for i < j { h := (i+j)/2; ... }`),
with explicit fuel; `n` units of fuel always suffice for the halving loop. -/
def searchLoop (f : Nat → Bool) : Nat → Nat → Nat → Nat
  | 0, i, _ => i
  | fuel + 1, i, j =>
    if i < j then
      if f ((i + j) / 2) then searchLoop f fuel i ((i + j) / 2)
      else searchLoop f fuel ((i + j) / 2 + 1) j
    else i

/-- `sort.Search n f`. -/
def sortSearch (n : Nat) (f : Nat → Bool) : Nat := searchLoop f n 0 n

/-- The binary-search index computed in `pathConfigSet.find`:
the smallest index whose stored path is lexicographically `>=` the request. -/
def searchIdx (pset : List pathConfig) (path : Str) : Nat :=
  sortSearch pset.length (fun k => !(lexLt (getP pset k) path))

/-- The slow-path scan of `pathConfigSet.find`: state is
(bestMatchConfig, subpath, lenShortestSubpath). -/
def slowScan (path : Str) : List pathConfig → Option pathConfig × Str × Nat →
    Option pathConfig × Str × Nat
  | [], st => st
  | ps :: rest, st =>
    if path.length ≤ ps.path.length then slowScan path rest st
    else
      if (trimPref path ps.path).length < st.2.2 then
        slowScan path rest (some ps, trimPref path ps.path, (trimPref path ps.path).length)
      else slowScan path rest st

/-- `pathConfigSet.find`: exact match by binary search, then the
immediate-predecessor boundary check, then the linear fallback scan. -/
def find (pset : List pathConfig) (path : Str) : Option pathConfig × Str :=
  if searchIdx pset path < pset.length ∧ getP pset (searchIdx pset path) = path then
    (some (pset.getD (searchIdx pset path) dfltPC), [])
  else if 0 < searchIdx pset path ∧
      ((getP pset (searchIdx pset path - 1) ++ slash).isPrefixOf path = true) then
    (some (pset.getD (searchIdx pset path - 1) dfltPC),
      path.drop ((getP pset (searchIdx pset path - 1)).length + 1))
  else
    ((slowScan path (pset.take (searchIdx pset path)) (none, [], path.length)).1,
      (slowScan path (pset.take (searchIdx pset path)) (none, [], path.length)).2.1)

/-! ### Configuration build (`InitHandler`) -/

/-- One entry of the parsed YAML `paths` mapping. -/
structure configEntry where
  repo : Str
  display : Str
  vcs : Str
deriving DecidableEq, Repr

/-- The parsed YAML configuration document (`config` in the source);
`paths` is the mapping in iteration order. -/
structure config where
  host : Str
  cacheAge : Option Int
  paths : List (Str × configEntry)
deriving DecidableEq, Repr

/-- The request handler state (`Handler` in the source). -/
structure Handler where
  host : Str
  cacheControl : Str
  paths : List pathConfig
deriving DecidableEq, Repr

/-- A fresh (zero-valued) handler. -/
def handler0 : Handler := ⟨[], [], []⟩

/-- Build errors of `InitHandler` after the document has been parsed. -/
inductive buildErr where
  | negativeCacheAge : buildErr
  | unknownVCS : Str → Str → buildErr
  | cannotInferVCS : Str → Str → buildErr
deriving DecidableEq, Repr

def githubPref : Str := str "https://github.com/"

def bitbucketPref : Str := str "https://bitbucket.org"

/-- GitHub-style `go-source` display template inferred by `InitHandler`. -/
def ghDisplay (repo : Str) : Str :=
  repo ++ str " " ++ repo ++ str "/tree/master\x7b/dir\x7d " ++ repo ++
    str "/blob/master\x7b/dir\x7d/\x7bfile\x7d#L\x7bline\x7d"

/-- Bitbucket-style `go-source` display template inferred by `InitHandler`. -/
def bbDisplay (repo : Str) : Str :=
  repo ++ str " " ++ repo ++ str "/src/default\x7b/dir\x7d " ++ repo ++
    str "/src/default\x7b/dir\x7d/\x7bfile\x7d#\x7bfile\x7d-\x7bline\x7d"

/-- `fmt.Sprintf("public, max-age=%d", n)`. -/
def cacheControlStr (n : Int) : Str := str "public, max-age=" ++ (toString n).data

/-- The per-entry body of `InitHandler`'s `for path, e := range config.Paths` loop:
display-template inference, then VCS validation/inference. -/
def buildEntry (path : Str) (e : configEntry) : Except buildErr pathConfig :=
  let display :=
    if e.display ≠ [] then e.display
    else if githubPref.isPrefixOf e.repo then ghDisplay e.repo
    else if bitbucketPref.isPrefixOf e.repo then bbDisplay e.repo
    else e.display
  if e.vcs ≠ [] then
    if e.vcs = str "bzr" ∨ e.vcs = str "git" ∨ e.vcs = str "hg" ∨ e.vcs = str "svn" then
      Except.ok ⟨trimSuffix path slash, e.repo, display, e.vcs⟩
    else Except.error (buildErr.unknownVCS path e.vcs)
  else if githubPref.isPrefixOf e.repo then
    Except.ok ⟨trimSuffix path slash, e.repo, display, str "git"⟩
  else Except.error (buildErr.cannotInferVCS path e.repo)

/-- The entry loop of `InitHandler`: each valid entry is appended in place to the
handler's path set (`acc`); a validation error aborts, keeping what was appended. -/
def loopPaths : List pathConfig → List (Str × configEntry) →
    Option buildErr × List pathConfig
  | acc, [] => (none, acc)
  | acc, (p, e) :: rest =>
    match buildEntry p e with
    | Except.error err => (some err, acc)
    | Except.ok pc => loopPaths (acc ++ [pc]) rest

/-- Insertion of one entry into a list sorted by `pathConfigSet.Less`. -/
def insertPC (x : pathConfig) : List pathConfig → List pathConfig
  | [] => [x]
  | y :: l => if lexLt x.path y.path then x :: y :: l else y :: insertPC x l

/-- `sort.Sort(handler.paths)`: sorting by `pathConfigSet.Less` (path ascending). -/
def sortPCs : List pathConfig → List pathConfig
  | [] => []
  | x :: l => insertPC x (sortPCs l)

/-- The tail of `InitHandler` after the negative-cache check: set cacheControl,
run the entry loop on the current (global) path set, sort on success. -/
def initFinish (h1 : Handler) (n : Int) (c : config) : Option buildErr × Handler :=
  let h2 : Handler := { h1 with cacheControl := cacheControlStr n }
  match loopPaths h2.paths c.paths with
  | (some err, ps) => (some err, { h2 with paths := ps })
  | (none, ps) => (none, { h2 with paths := sortPCs ps })

/-- `InitHandler` from the parsed document on: overwrites the global handler's
host, validates the cache age, then runs the entry loop.  The pair is the
returned error (if any) together with the global handler state afterwards. -/
def initHandler (h : Handler) (c : config) : Option buildErr × Handler :=
  let h1 : Handler := { h with host := c.host }
  match c.cacheAge with
  | some n => if n < 0 then (some buildErr.negativeCacheAge, h1) else initFinish h1 n c
  | none => initFinish h1 86400 c

/-! ### Request handling (`HandleImport`) -/

/-- The observable outcome of `HandleImport`. -/
inductive Response where
  | vanity : Str → Str → Str → Str → Str → Str → Response
  | index : Str → List Str → Response
  | notFound : Response
deriving DecidableEq, Repr

/-- `Handler.Host`: the configured host override, else the request's host. -/
def hostFn (h : Handler) (reqHost : Str) : Str := if h.host = [] then reqHost else h.host

/-- `HandleImport`: resolve, then dispatch to the vanity page, the index page
(only at the root), or not-found. -/
def handleImport (h : Handler) (reqPath reqHost : Str) : Response :=
  match find h.paths reqPath with
  | (none, _) =>
    if reqPath = str "/" then
      Response.index (hostFn h reqHost) (h.paths.map (fun p => hostFn h reqHost ++ p.path))
    else Response.notFound
  | (some pc, sp) =>
    Response.vanity (hostFn h reqHost ++ pc.path) sp pc.repo pc.display pc.vcs h.cacheControl

/-! ### Order lemmas for `lexLt` -/

theorem lexLt_irrefl (a : Str) : lexLt a a = false := by
  induction a with
  | nil => rfl
  | cons x as ih => simp [lexLt, lt_irrefl, ih]

theorem lexLt_trans : ∀ {a b c : Str}, lexLt a b = true → lexLt b c = true →
    lexLt a c = true := by
  intro a
  induction a with
  | nil =>
    intro b c hab hbc
    cases b with
    | nil => simp [lexLt] at hab
    | cons y bs =>
      cases c with
      | nil => simp [lexLt] at hbc
      | cons z cs => rfl
  | cons x as ih =>
    intro b c hab hbc
    cases b with
    | nil => simp [lexLt] at hab
    | cons y bs =>
      cases c with
      | nil => simp [lexLt] at hbc
      | cons z cs =>
        simp only [lexLt] at hab hbc ⊢
        rcases lt_trichotomy x y with h1 | h1 | h1
        · rcases lt_trichotomy y z with h2 | h2 | h2
          · simp [lt_trans h1 h2]
          · subst h2; simp [h1]
          · rw [if_neg (lt_asymm h2), if_pos h2] at hbc; exact absurd hbc (by simp)
        · subst h1
          rw [if_neg (lt_irrefl x), if_neg (lt_irrefl x)] at hab
          rcases lt_trichotomy x z with h2 | h2 | h2
          · simp [h2]
          · subst h2
            rw [if_neg (lt_irrefl x), if_neg (lt_irrefl x)] at hbc ⊢
            exact ih hab hbc
          · rw [if_neg (lt_asymm h2), if_pos h2] at hbc; exact absurd hbc (by simp)
        · rw [if_neg (lt_asymm h1), if_pos h1] at hab; exact absurd hab (by simp)

theorem lexLt_asymm {a b : Str} (h : lexLt a b = true) : lexLt b a = false := by
  cases hba : lexLt b a with
  | false => rfl
  | true =>
    have := lexLt_trans h hba
    rw [lexLt_irrefl] at this
    exact absurd this (by simp)

theorem lexLt_connex : ∀ {a b : Str}, lexLt a b = false → lexLt b a = false → a = b := by
  intro a
  induction a with
  | nil =>
    intro b hab _
    cases b with
    | nil => rfl
    | cons y bs => simp [lexLt] at hab
  | cons x as ih =>
    intro b hab hba
    cases b with
    | nil => simp [lexLt] at hba
    | cons y bs =>
      simp only [lexLt] at hab hba
      rcases lt_trichotomy x y with h | h | h
      · rw [if_pos h] at hab; exact absurd hab (by simp)
      · subst h
        rw [if_neg (lt_irrefl x), if_neg (lt_irrefl x)] at hab hba
        rw [ih hab hba]
      · rw [if_pos h] at hba; exact absurd hba (by simp)

/-- From `b ≤ a` and `a < c` conclude `b < c`. -/
theorem lexLt_lt_of_le {a b c : Str} (hle : lexLt a b = false) (hlt : lexLt a c = true) :
    lexLt b c = true := by
  cases hbc : lexLt b c with
  | true => rfl
  | false =>
    cases hcb : lexLt c b with
    | true =>
      rw [lexLt_trans hlt hcb] at hle
      exact absurd hle (by simp)
    | false =>
      have hbceq : b = c := lexLt_connex hbc hcb
      subst hbceq
      exact absurd (hlt.symm.trans hle) (by simp)

theorem lexLt_append {a t : Str} (ht : t ≠ []) : lexLt a (a ++ t) = true := by
  induction a with
  | nil =>
    cases t with
    | nil => exact absurd rfl ht
    | cons u us => rfl
  | cons x as ih =>
    show (if x < x then true else if x < x then false else lexLt as (as ++ t)) = true
    rw [if_neg (lt_irrefl x), if_neg (lt_irrefl x)]
    exact ih

/-! ### Prefix lemmas (for `List.isPrefixOf`, Go's `strings.HasPrefix`) -/

theorem prefOf_iff {a : Str} : ∀ {b : Str}, a.isPrefixOf b = true ↔ ∃ t, a ++ t = b := by
  induction a with
  | nil => intro b; simp [List.isPrefixOf]
  | cons x as ih =>
    intro b
    cases b with
    | nil => simp [List.isPrefixOf]
    | cons y bs =>
      simp only [List.isPrefixOf, Bool.and_eq_true, beq_iff_eq, List.cons_append]
      constructor
      · rintro ⟨rfl, h⟩
        obtain ⟨t, rfl⟩ := ih.mp h
        exact ⟨t, rfl⟩
      · rintro ⟨t, ht⟩
        injection ht with h1 h2
        exact ⟨h1, ih.mpr ⟨t, h2⟩⟩

theorem prefOf_length {a b : Str} (h : a.isPrefixOf b = true) : a.length ≤ b.length := by
  obtain ⟨t, rfl⟩ := prefOf_iff.mp h
  rw [List.length_append]
  omega

theorem prefOf_append (a t : Str) : a.isPrefixOf (a ++ t) = true :=
  prefOf_iff.mpr ⟨t, rfl⟩

theorem prefOf_refl (a : Str) : a.isPrefixOf a = true :=
  prefOf_iff.mpr ⟨[], by simp⟩

theorem eq_of_prefOf_length {a b : Str} (h : a.isPrefixOf b = true)
    (hl : b.length ≤ a.length) : a = b := by
  obtain ⟨t, rfl⟩ := prefOf_iff.mp h
  rw [List.length_append] at hl
  have ht : t = [] := List.length_eq_zero.mp (by omega)
  subst ht
  simp

theorem strict_prefOf_length {a b : Str} (h : a.isPrefixOf b = true) (hne : a ≠ b) :
    a.length < b.length := by
  rcases Nat.lt_or_ge a.length b.length with hl | hl
  · exact hl
  · exact absurd (eq_of_prefOf_length h hl) hne

theorem prefOf_comparable : ∀ {a b c : Str}, a.isPrefixOf c = true → b.isPrefixOf c = true →
    a.length ≤ b.length → a.isPrefixOf b = true := by
  intro a
  induction a with
  | nil => intro b c _ _ _; simp [List.isPrefixOf]
  | cons x as ih =>
    intro b c ha hb hl
    cases c with
    | nil => simp [List.isPrefixOf] at ha
    | cons z cs =>
      cases b with
      | nil => simp at hl
      | cons y bs =>
        simp only [List.isPrefixOf, Bool.and_eq_true, beq_iff_eq] at ha hb ⊢
        obtain ⟨rfl, ha'⟩ := ha
        obtain ⟨rfl, hb'⟩ := hb
        refine ⟨rfl, ih ha' hb' ?_⟩
        simpa using hl

theorem prefOf_of_append_prefOf {a t b : Str} (h : (a ++ t).isPrefixOf b = true) :
    a.isPrefixOf b = true := by
  obtain ⟨u, hu⟩ := prefOf_iff.mp h
  exact prefOf_iff.mpr ⟨t ++ u, by rw [← List.append_assoc, hu]⟩

theorem lexLt_of_strict_prefOf {a b : Str} (h : a.isPrefixOf b = true) (hne : a ≠ b) :
    lexLt a b = true := by
  obtain ⟨t, rfl⟩ := prefOf_iff.mp h
  refine lexLt_append ?_
  intro ht
  subst ht
  exact hne (by simp)

theorem trimPref_of_prefOf {s pre : Str} (h : pre.isPrefixOf s = true) :
    trimPref s pre = s.drop pre.length := by
  simp [trimPref, h]

theorem trimPref_of_not_prefOf {s pre : Str} (h : pre.isPrefixOf s = false) :
    trimPref s pre = s := by
  simp [trimPref, h]

/-! ### Indexing helpers -/

theorem mem_of_getD {α : Type} (l : List α) (d : α) :
    ∀ k, k < l.length → l.getD k d ∈ l := by
  induction l with
  | nil => intro k hk; simp at hk
  | cons x xs ih =>
    intro k hk
    cases k with
    | zero => simp
    | succ k =>
      simp only [List.getD_cons_succ]
      exact List.mem_cons_of_mem _ (ih k (by simpa using hk))

theorem getD_of_mem {α : Type} {l : List α} {x : α} (d : α) (h : x ∈ l) :
    ∃ k, k < l.length ∧ l.getD k d = x := by
  induction l with
  | nil => simp at h
  | cons y ys ih =>
    rcases List.mem_cons.mp h with rfl | h'
    · exact ⟨0, by simp, by simp⟩
    · obtain ⟨k, hk, hgd⟩ := ih h'
      exact ⟨k + 1, by simpa using hk, by simpa using hgd⟩

theorem getD_take {α : Type} (l : List α) (d : α) :
    ∀ i k, k < i → (l.take i).getD k d = l.getD k d := by
  induction l with
  | nil => intro i k _; simp
  | cons x xs ih =>
    intro i k hk
    cases i with
    | zero => exact absurd hk (Nat.not_lt_zero k)
    | succ i =>
      cases k with
      | zero => simp
      | succ k =>
        simp only [List.take_succ_cons, List.getD_cons_succ]
        exact ih i k (by omega)

theorem mem_take {α : Type} {l : List α} {x : α} : ∀ {i : Nat}, x ∈ l.take i → x ∈ l := by
  induction l with
  | nil => intro i h; simp at h
  | cons y ys ih =>
    intro i h
    cases i with
    | zero => simp at h
    | succ i =>
      rw [List.take_succ_cons] at h
      rcases List.mem_cons.mp h with rfl | h'
      · exact List.mem_cons_self _ _
      · exact List.mem_cons_of_mem _ (ih h')

theorem andE {a b : Bool} (h : (a && b) = true) : a = true ∧ b = true := by
  cases a <;> cases b <;> simp_all

/-! ### Sortedness -/

/-- Chain check: the path fields are non-strictly ascending. -/
def sortedLeB : List pathConfig → Bool
  | [] => true
  | [_] => true
  | a :: b :: l => (!(lexLt b.path a.path)) && sortedLeB (b :: l)

/-- Chain check: the path fields are strictly ascending (sorted and duplicate-free). -/
def sortedLtB : List pathConfig → Bool
  | [] => true
  | [_] => true
  | a :: b :: l => lexLt a.path b.path && sortedLtB (b :: l)

theorem sortedLeB_cons {a : pathConfig} {l : List pathConfig}
    (h : sortedLeB (a :: l) = true) : sortedLeB l = true := by
  cases l with
  | nil => rfl
  | cons b m => exact (andE h).2

theorem sortedLtB_cons {a : pathConfig} {l : List pathConfig}
    (h : sortedLtB (a :: l) = true) : sortedLtB l = true := by
  cases l with
  | nil => rfl
  | cons b m => exact (andE h).2

theorem sortedLeB_head {a : pathConfig} {l : List pathConfig}
    (h : sortedLeB (a :: l) = true) : ∀ x ∈ l, lexLt x.path a.path = false := by
  induction l generalizing a with
  | nil => simp
  | cons b m ih =>
    intro x hx
    have h1 : lexLt b.path a.path = false := by
      have := (andE h).1
      simpa using this
    rcases List.mem_cons.mp hx with rfl | hx'
    · exact h1
    · have h2 := ih (andE h).2 x hx'
      cases hxa : lexLt x.path a.path with
      | false => rfl
      | true =>
        rw [lexLt_lt_of_le h2 hxa] at h1
        exact absurd h1 (by simp)

theorem sortedLtB_head {a : pathConfig} {l : List pathConfig}
    (h : sortedLtB (a :: l) = true) : ∀ x ∈ l, lexLt a.path x.path = true := by
  induction l generalizing a with
  | nil => simp
  | cons b m ih =>
    intro x hx
    have h1 : lexLt a.path b.path = true := (andE h).1
    rcases List.mem_cons.mp hx with rfl | hx'
    · exact h1
    · exact lexLt_trans h1 (ih (andE h).2 x hx')

theorem sortedLtB_le : ∀ l, sortedLtB l = true → sortedLeB l = true := by
  intro l
  induction l with
  | nil => intro _; rfl
  | cons a m ih =>
    intro h
    cases m with
    | nil => rfl
    | cons b m' =>
      have h1 := (andE h).1
      have h2 := ih (sortedLtB_cons h)
      show ((!(lexLt b.path a.path)) && sortedLeB (b :: m')) = true
      rw [lexLt_asymm h1, h2]
      rfl

theorem sortedLeB_getD (l : List pathConfig) (h : sortedLeB l = true) :
    ∀ k1 k2, k1 ≤ k2 → k2 < l.length → lexLt (getP l k2) (getP l k1) = false := by
  induction l with
  | nil => intro k1 k2 _ h2; simp at h2
  | cons a m ih =>
    intro k1 k2 h12 h2
    cases k1 with
    | zero =>
      cases k2 with
      | zero => simp [getP, lexLt_irrefl]
      | succ k2 =>
        have hk2 : k2 < m.length := by simpa using h2
        have hmem : m.getD k2 dfltPC ∈ m := mem_of_getD m dfltPC k2 hk2
        have := sortedLeB_head h _ hmem
        simpa [getP] using this
    | succ k1 =>
      cases k2 with
      | zero => omega
      | succ k2 =>
        have := ih (sortedLeB_cons h) k1 k2 (by omega) (by simpa using h2)
        simpa [getP] using this

theorem sortedLtB_getD (l : List pathConfig) (h : sortedLtB l = true) :
    ∀ k1 k2, k1 < k2 → k2 < l.length → lexLt (getP l k1) (getP l k2) = true := by
  induction l with
  | nil => intro k1 k2 _ h2; simp at h2
  | cons a m ih =>
    intro k1 k2 h12 h2
    cases k1 with
    | zero =>
      cases k2 with
      | zero => omega
      | succ k2 =>
        have hk2 : k2 < m.length := by simpa using h2
        have hmem : m.getD k2 dfltPC ∈ m := mem_of_getD m dfltPC k2 hk2
        have := sortedLtB_head h _ hmem
        simpa [getP] using this
    | succ k1 =>
      cases k2 with
      | zero => omega
      | succ k2 =>
        have := ih (sortedLtB_cons h) k1 k2 (by omega) (by simpa using h2)
        simpa [getP] using this

/-- In a strictly sorted set, entries are determined by their paths. -/
theorem pathInj {pset : List pathConfig} (hs : sortedLtB pset = true) :
    ∀ {a b : pathConfig}, a ∈ pset → b ∈ pset → a.path = b.path → a = b := by
  induction pset with
  | nil => intro a b ha _ _; simp at ha
  | cons x m ih =>
    intro a b ha hb hp
    rcases List.mem_cons.mp ha with rfl | ha' <;> rcases List.mem_cons.mp hb with rfl | hb'
    · rfl
    · have := sortedLtB_head hs _ hb'
      rw [← hp, lexLt_irrefl] at this
      exact absurd this (by simp)
    · have := sortedLtB_head hs _ ha'
      rw [hp, lexLt_irrefl] at this
      exact absurd this (by simp)
    · exact ih (sortedLtB_cons hs) ha' hb' hp

/-! ### Binary-search characterization -/

theorem searchLoop_spec (f : Nat → Bool) (n : Nat)
    (hm : ∀ a b, a ≤ b → b < n → f a = true → f b = true) :
    ∀ fuel i j, j - i ≤ fuel → i ≤ j → j ≤ n → (∀ k, k < i → f k = false) →
      i ≤ searchLoop f fuel i j ∧ searchLoop f fuel i j ≤ j ∧
      (∀ k, k < searchLoop f fuel i j → f k = false) ∧
      (searchLoop f fuel i j < j → f (searchLoop f fuel i j) = true) := by
  intro fuel
  induction fuel with
  | zero =>
    intro i j hd hij hjn hb
    have hij' : i = j := by omega
    subst hij'
    exact ⟨le_rfl, le_rfl, hb, fun h => absurd h (lt_irrefl i)⟩
  | succ fuel ih =>
    intro i j hd hij hjn hb
    by_cases hlt : i < j
    · have hm1 : (i + j) / 2 < j := by omega
      have hm2 : i ≤ (i + j) / 2 := by omega
      cases hf : f ((i + j) / 2) with
      | false =>
        have hb' : ∀ k, k < (i + j) / 2 + 1 → f k = false := by
          intro k hk
          by_cases hki : k < i
          · exact hb k hki
          · cases hfk : f k with
            | false => rfl
            | true =>
              have := hm k ((i + j) / 2) (by omega) (by omega) hfk
              rw [this] at hf
              exact absurd hf (by simp)
        have hrec := ih ((i + j) / 2 + 1) j (by omega) (by omega) hjn hb'
        have heq : searchLoop f (fuel + 1) i j = searchLoop f fuel ((i + j) / 2 + 1) j := by
          simp [searchLoop, hlt, hf]
        rw [heq]
        exact ⟨by omega, hrec.2.1, hrec.2.2.1, hrec.2.2.2⟩
      | true =>
        have hrec := ih i ((i + j) / 2) (by omega) (by omega) (by omega) hb
        have heq : searchLoop f (fuel + 1) i j = searchLoop f fuel i ((i + j) / 2) := by
          simp [searchLoop, hlt, hf]
        rw [heq]
        refine ⟨hrec.1, by omega, hrec.2.2.1, ?_⟩
        intro _
        by_cases hrm : searchLoop f fuel i ((i + j) / 2) < (i + j) / 2
        · exact hrec.2.2.2 hrm
        · have hEq : searchLoop f fuel i ((i + j) / 2) = (i + j) / 2 := by omega
          rw [hEq]
          exact hf
    · have hij' : i = j := by omega
      subst hij'
      have heq : searchLoop f (fuel + 1) i i = i := by simp [searchLoop]
      rw [heq]
      exact ⟨le_rfl, le_rfl, hb, fun h => absurd h (lt_irrefl i)⟩

theorem searchIdx_spec (pset : List pathConfig) (path : Str) (hs : sortedLeB pset = true) :
    searchIdx pset path ≤ pset.length ∧
    (∀ k, k < searchIdx pset path → lexLt (getP pset k) path = true) ∧
    (∀ k, searchIdx pset path ≤ k → k < pset.length → lexLt (getP pset k) path = false) := by
  have hm : ∀ a b, a ≤ b → b < pset.length →
      (fun k => !(lexLt (getP pset k) path)) a = true →
      (fun k => !(lexLt (getP pset k) path)) b = true := by
    intro a b hab hbn hfa
    simp only [Bool.not_eq_true'] at hfa ⊢
    have hle := sortedLeB_getD pset hs a b hab hbn
    cases hbp : lexLt (getP pset b) path with
    | false => rfl
    | true =>
      rw [lexLt_lt_of_le hle hbp] at hfa
      exact absurd hfa (by simp)
  have hspec := searchLoop_spec _ pset.length hm pset.length 0 pset.length
    (by omega) (by omega) le_rfl (fun k hk => absurd hk (Nat.not_lt_zero k))
  have hidx : searchIdx pset path =
      searchLoop (fun k => !(lexLt (getP pset k) path)) pset.length 0 pset.length := rfl
  refine ⟨by rw [hidx]; exact hspec.2.1, ?_, ?_⟩
  · intro k hk
    rw [hidx] at hk
    have := hspec.2.2.1 k hk
    simpa using this
  · intro k h1 h2
    rw [hidx] at h1
    have hlt : searchLoop (fun k => !(lexLt (getP pset k) path)) pset.length 0 pset.length
        < pset.length := by omega
    have hf := hspec.2.2.2 hlt
    have := hm _ k (by omega) h2 hf
    simpa using this

/-! ### The slow-path scan -/

/-- An entry the slow path can select: its stored path is a non-empty strict
(bare, not necessarily boundary-respecting) prefix of the request path. -/
def goodPref (path : Str) (e : pathConfig) : Prop :=
  e.path.isPrefixOf path = true ∧ 0 < e.path.length ∧ e.path.length < path.length

/-- Invariant of the slow-path state `(bestMatchConfig, subpath, lenShortestSubpath)`. -/
def stInv (path : Str) (st : Option pathConfig × Str × Nat) : Prop :=
  (st.1 = none ∧ st.2.2 = path.length) ∨
  (∃ b, st.1 = some b ∧ goodPref path b ∧ st.2.1 = path.drop b.path.length ∧
    st.2.2 = path.length - b.path.length)

theorem slowScan_spec (path : Str) :
    ∀ (l : List pathConfig) (st : Option pathConfig × Str × Nat), stInv path st →
      stInv path (slowScan path l st) ∧
      (∀ e, e ∈ l → goodPref path e →
        ∃ b, (slowScan path l st).1 = some b ∧ e.path.length ≤ b.path.length) ∧
      (∀ b, (slowScan path l st).1 = some b → st.1 = some b ∨ b ∈ l) ∧
      (∀ b, st.1 = some b →
        ∃ b', (slowScan path l st).1 = some b' ∧ b.path.length ≤ b'.path.length) := by
  intro l
  induction l with
  | nil =>
    intro st hst
    exact ⟨hst, by simp, fun b hb => Or.inl hb, fun b hb => ⟨b, hb, le_rfl⟩⟩
  | cons ps rest ih =>
    intro st hst
    have hth : st.2.2 ≤ path.length := by
      rcases hst with ⟨_, h2⟩ | ⟨b, _, hg, _, h2⟩
      · omega
      · omega
    by_cases hskip : path.length ≤ ps.path.length
    · have heq : slowScan path (ps :: rest) st = slowScan path rest st := by
        simp [slowScan, hskip]
      rw [heq]
      obtain ⟨i1, i2, i3, i4⟩ := ih st hst
      refine ⟨i1, ?_, ?_, i4⟩
      · intro e he hg
        rcases List.mem_cons.mp he with rfl | he'
        · exact absurd hg.2.2 (by omega)
        · exact i2 e he' hg
      · intro b hb
        rcases i3 b hb with h | h
        · exact Or.inl h
        · exact Or.inr (List.mem_cons_of_mem _ h)
    · by_cases hupd : (trimPref path ps.path).length < st.2.2
      · have hpref : ps.path.isPrefixOf path = true := by
          cases hp : ps.path.isPrefixOf path with
          | true => rfl
          | false =>
            rw [trimPref_of_not_prefOf hp] at hupd
            omega
        have hsd : trimPref path ps.path = path.drop ps.path.length :=
          trimPref_of_prefOf hpref
        have hlen : (trimPref path ps.path).length = path.length - ps.path.length := by
          rw [hsd, List.length_drop]
        have heq : slowScan path (ps :: rest) st =
            slowScan path rest
              (some ps, trimPref path ps.path, (trimPref path ps.path).length) := by
          simp [slowScan, hskip, hupd]
        rw [hlen] at hupd
        have hpos : 0 < ps.path.length := by omega
        have hplt : ps.path.length < path.length := by omega
        have hgood : goodPref path ps := ⟨hpref, hpos, hplt⟩
        have hst' : stInv path (some ps, trimPref path ps.path, (trimPref path ps.path).length) :=
          Or.inr ⟨ps, rfl, hgood, hsd, hlen⟩
        obtain ⟨i1, i2, i3, i4⟩ := ih _ hst'
        rw [heq]
        refine ⟨i1, ?_, ?_, ?_⟩
        · intro e he hg
          rcases List.mem_cons.mp he with rfl | he'
          · exact i4 e rfl
          · exact i2 e he' hg
        · intro b hb
          rcases i3 b hb with h | h
          · have : ps = b := Option.some.inj h
            exact Or.inr (this ▸ List.mem_cons_self _ _)
          · exact Or.inr (List.mem_cons_of_mem _ h)
        · intro b hb
          rcases hst with ⟨hn, _⟩ | ⟨b0, hb0, hg0, _, h20⟩
          · rw [hb] at hn
            exact absurd hn (by simp)
          · have hbb : b0 = b := by
              rw [hb] at hb0
              exact (Option.some.inj hb0).symm
            subst hbb
            rw [h20] at hupd
            have hlb : b0.path.length ≤ ps.path.length := by
              have := hg0.2.2
              omega
            obtain ⟨b', hb', hle'⟩ := i4 ps rfl
            exact ⟨b', hb', by omega⟩
      · have heq : slowScan path (ps :: rest) st = slowScan path rest st := by
          simp [slowScan, hskip, hupd]
        rw [heq]
        obtain ⟨i1, i2, i3, i4⟩ := ih st hst
        refine ⟨i1, ?_, ?_, i4⟩
        · intro e he hg
          rcases List.mem_cons.mp he with rfl | he'
          · have hsd : trimPref path e.path = path.drop e.path.length :=
              trimPref_of_prefOf hg.1
            have hlen : (trimPref path e.path).length = path.length - e.path.length := by
              rw [hsd, List.length_drop]
            rw [hlen] at hupd
            rcases hst with ⟨hn, h2⟩ | ⟨b0, hb0, hg0, _, h20⟩
            · exfalso
              rw [h2] at hupd
              have := hg.2.1
              have := hg.2.2
              omega
            · rw [h20] at hupd
              have hlb : e.path.length ≤ b0.path.length := by
                have := hg0.2.2
                have := hg.2.2
                omega
              obtain ⟨b', hb', hle'⟩ := i4 b0 hb0
              exact ⟨b', hb', by omega⟩
          · exact i2 e he' hg
        · intro b hb
          rcases i3 b hb with h | h
          · exact Or.inl h
          · exact Or.inr (List.mem_cons_of_mem _ h)

/-! ### Characterization of `find` -/

/-- On a strictly sorted entry set with no exact match, `find` returns the entry
whose stored path is the longest non-empty bare prefix of the request; the
subpath keeps the separator unless the fast immediate-predecessor path fired. -/
theorem find_best (pset : List pathConfig) (path : Str)
    (hsort : sortedLtB pset = true)
    (hnx : ∀ e, e ∈ pset → e.path ≠ path)
    (estar : pathConfig) (hmem : estar ∈ pset)
    (hpref : estar.path.isPrefixOf path = true)
    (hpos : 0 < estar.path.length)
    (hmax : ∀ e, e ∈ pset → e.path.isPrefixOf path = true →
      e.path.length ≤ estar.path.length) :
    find pset path = (some estar, path.drop estar.path.length) ∨
    ((estar.path ++ slash).isPrefixOf path = true ∧
      find pset path = (some estar, path.drop (estar.path.length + 1))) := by
  obtain ⟨hin, hbelow, habove⟩ := searchIdx_spec pset path (sortedLtB_le _ hsort)
  obtain ⟨ks, hks, hksv⟩ := getD_of_mem dfltPC hmem
  have hstarlt : lexLt estar.path path = true :=
    lexLt_of_strict_prefOf hpref (hnx estar hmem)
  have hstarlen : estar.path.length < path.length :=
    strict_prefOf_length hpref (hnx estar hmem)
  have hksi : ks < searchIdx pset path := by
    by_contra hge
    push_neg at hge
    have h := habove ks hge hks
    rw [getP, hksv, hstarlt] at h
    exact absurd h (by simp)
  simp only [find]
  by_cases h1 : searchIdx pset path < pset.length ∧ getP pset (searchIdx pset path) = path
  · exfalso
    have hm := mem_of_getD pset dfltPC _ h1.1
    exact hnx _ hm h1.2
  · rw [if_neg h1]
    by_cases h2 : 0 < searchIdx pset path ∧
        ((getP pset (searchIdx pset path - 1) ++ slash).isPrefixOf path = true)
    · rw [if_pos h2]
      have hbmem : pset.getD (searchIdx pset path - 1) dfltPC ∈ pset :=
        mem_of_getD pset dfltPC _ (by omega)
      have hbpref : (getP pset (searchIdx pset path - 1)).isPrefixOf path = true :=
        prefOf_of_append_prefOf h2.2
      have hble : (getP pset (searchIdx pset path - 1)).length ≤ estar.path.length :=
        hmax _ hbmem hbpref
      have hstarle : estar.path.length ≤ (getP pset (searchIdx pset path - 1)).length := by
        by_contra hlt
        push_neg at hlt
        have hplus : (getP pset (searchIdx pset path - 1) ++ slash).isPrefixOf estar.path
            = true := by
          refine prefOf_comparable h2.2 hpref ?_
          rw [List.length_append]
          simp only [slash, List.length_cons, List.length_nil]
          omega
        have hblt : lexLt (getP pset (searchIdx pset path - 1)) estar.path = true := by
          refine lexLt_of_strict_prefOf (prefOf_of_append_prefOf hplus) ?_
          intro hcontra
          rw [hcontra] at hlt
          omega
        rcases Nat.lt_trichotomy ks (searchIdx pset path - 1) with hk | hk | hk
        · have h := sortedLtB_getD pset hsort ks (searchIdx pset path - 1) hk (by omega)
          rw [getP, hksv] at h
          rw [lexLt_asymm hblt] at h
          exact absurd h (by simp)
        · rw [← hk, getP, hksv] at hlt
          omega
        · omega
      have hbeq : getP pset (searchIdx pset path - 1) = estar.path := by
        refine eq_of_prefOf_length (prefOf_comparable hbpref hpref hble) ?_
        omega
      have hbeq' : pset.getD (searchIdx pset path - 1) dfltPC = estar :=
        pathInj hsort hbmem hmem hbeq
      right
      constructor
      · rw [← hbeq]
        exact h2.2
      · rw [hbeq', hbeq]
    · rw [if_neg h2]
      obtain ⟨j1, j2, j3, j4⟩ :=
        slowScan_spec path (pset.take (searchIdx pset path)) (none, [], path.length)
          (Or.inl ⟨rfl, rfl⟩)
      have hmemtake : estar ∈ pset.take (searchIdx pset path) := by
        have hlen : ks < (pset.take (searchIdx pset path)).length := by
          rw [List.length_take]
          omega
        have := mem_of_getD (pset.take (searchIdx pset path)) dfltPC ks hlen
        rw [getD_take pset dfltPC _ ks hksi, hksv] at this
        exact this
      have hgood : goodPref path estar := ⟨hpref, hpos, hstarlen⟩
      obtain ⟨bf, hbf, hlenf⟩ := j2 estar hmemtake hgood
      have hbfmem : bf ∈ pset := by
        rcases j3 bf hbf with h | h
        · exact absurd h (by simp)
        · exact mem_take h
      rcases j1 with ⟨hn, _⟩ | ⟨b0, hb0, hb0good, hb0sp, _⟩
      · rw [hbf] at hn
        exact absurd hn (by simp)
      · have hbeq0 : b0 = bf := by
          rw [hbf] at hb0
          exact (Option.some.inj hb0).symm
        subst hbeq0
        have hle2 : b0.path.length ≤ estar.path.length := hmax b0 hbfmem hb0good.1
        have hbeq : b0.path = estar.path :=
          eq_of_prefOf_length (prefOf_comparable hb0good.1 hpref hle2) (by omega)
        have hbeq' : b0 = estar := pathInj hsort hbfmem hmem hbeq
        left
        rw [hbf, hb0sp, hbeq']

/-! ### Concrete entries used in witnesses and counterexamples -/

def ghRepo : Str := str "https://github.com/org/x"

def pcAbc : pathConfig := ⟨str "/abc", ghRepo, [], str "git"⟩

def pcXyz : pathConfig := ⟨str "/xyz", ghRepo, [], str "git"⟩

def pcA : pathConfig := ⟨str "/a", ghRepo, [], str "git"⟩

def pcABang : pathConfig := ⟨str "/a!", ghRepo, [], str "git"⟩

def pcAB : pathConfig := ⟨str "/a/b", ghRepo, [], str "git"⟩

/-! ### Build lemmas -/

theorem initHandler_none (h : Handler) (c : config) (hca : c.cacheAge = none) :
    initHandler h c = initFinish { h with host := c.host } 86400 c := by
  simp [initHandler, hca]

theorem initHandler_someNonneg (h : Handler) (c : config) (n : Int) (hca : c.cacheAge = some n)
    (hn : ¬ n < 0) : initHandler h c = initFinish { h with host := c.host } n c := by
  simp [initHandler, hca, hn]

theorem initHandler_someNeg (h : Handler) (c : config) (n : Int) (hca : c.cacheAge = some n)
    (hn : n < 0) :
    initHandler h c = (some buildErr.negativeCacheAge, { h with host := c.host }) := by
  simp [initHandler, hca, hn]

theorem initFinish_err (h1 : Handler) (n : Int) (c : config) (err : buildErr)
    (ps : List pathConfig) (hlp : loopPaths h1.paths c.paths = (some err, ps)) :
    initFinish h1 n c =
      (some err, { host := h1.host, cacheControl := cacheControlStr n, paths := ps }) := by
  simp [initFinish, hlp]

theorem initFinish_ok (h1 : Handler) (n : Int) (c : config)
    (ps : List pathConfig) (hlp : loopPaths h1.paths c.paths = (none, ps)) :
    initFinish h1 n c =
      (none, { host := h1.host, cacheControl := cacheControlStr n, paths := sortPCs ps }) := by
  simp [initFinish, hlp]

theorem loopPaths_some : ∀ (l : List (Str × configEntry)) (acc : List pathConfig),
    (∃ pe, pe ∈ l ∧ ∃ err, buildEntry pe.1 pe.2 = Except.error err) →
    (loopPaths acc l).1.isSome = true := by
  intro l
  induction l with
  | nil =>
    intro acc h
    obtain ⟨pe, hpe, _⟩ := h
    simp at hpe
  | cons x rest ih =>
    intro acc h
    obtain ⟨pe, hpe, err, herr⟩ := h
    obtain ⟨p, e⟩ := x
    simp only [loopPaths]
    rcases List.mem_cons.mp hpe with rfl | hpe'
    · rw [herr]
      rfl
    · cases hbe : buildEntry p e with
      | error err2 => rfl
      | ok pc => exact ih _ ⟨pe, hpe', err, herr⟩

theorem buildEntry_empty (p : Str) (e : configEntry) (hr : e.repo = []) (hv : e.vcs = []) :
    buildEntry p e = Except.error (buildErr.cannotInferVCS p e.repo) := by
  have hg : githubPref.isPrefixOf ([] : Str) = false := by decide
  have hb : bitbucketPref.isPrefixOf ([] : Str) = false := by decide
  by_cases hd : e.display = [] <;> simp [buildEntry, hv, hr, hg, hb, hd]

theorem insertPC_sortedLe (x : pathConfig) :
    ∀ l, sortedLeB l = true → sortedLeB (insertPC x l) = true := by
  intro l
  induction l with
  | nil => intro _; rfl
  | cons y m ih =>
    intro hs
    simp only [insertPC]
    by_cases hxy : lexLt x.path y.path = true
    · rw [if_pos hxy]
      show ((!(lexLt y.path x.path)) && sortedLeB (y :: m)) = true
      rw [lexLt_asymm hxy, hs]
      rfl
    · have hxy' : lexLt x.path y.path = false := by
        revert hxy
        cases lexLt x.path y.path <;> simp
      rw [if_neg hxy]
      cases m with
      | nil =>
        show ((!(lexLt x.path y.path)) && sortedLeB [x]) = true
        rw [hxy']
        rfl
      | cons z m' =>
        have hyz : lexLt z.path y.path = false := by
          have := (andE hs).1
          simpa using this
        have hs' : sortedLeB (z :: m') = true := sortedLeB_cons hs
        have hrec := ih hs'
        simp only [insertPC] at hrec ⊢
        by_cases hxz : lexLt x.path z.path = true
        · rw [if_pos hxz] at hrec ⊢
          show ((!(lexLt x.path y.path)) && sortedLeB (x :: z :: m')) = true
          rw [hxy', hrec]
          rfl
        · rw [if_neg hxz] at hrec ⊢
          show ((!(lexLt z.path y.path)) && sortedLeB (z :: insertPC x m')) = true
          rw [hyz, hrec]
          rfl

theorem sortPCs_sortedLe : ∀ l, sortedLeB (sortPCs l) = true := by
  intro l
  induction l with
  | nil => rfl
  | cons x m ih =>
    simp only [sortPCs]
    exact insertPC_sortedLe x _ ih

/-! ### Claims -/

/-- C1 (amended): an entry returned by `find` always has its stored path a bare
prefix of the request path, but the `/`-boundary requirement does not hold: the
fallback scan matches entries whose path is not followed by a separator (with
entry `/abc`, the request `/abcd` matches `/abc` with subpath `d`, see the
counterexample). -/
theorem c1_match_pref (pset : List pathConfig) (path : Str) (e : pathConfig) (sp : Str)
    (h : find pset path = (some e, sp)) : e.path.isPrefixOf path = true := by
  simp only [find] at h
  by_cases h1 : searchIdx pset path < pset.length ∧ getP pset (searchIdx pset path) = path
  · rw [if_pos h1] at h
    have he : pset.getD (searchIdx pset path) dfltPC = e :=
      Option.some.inj (congrArg Prod.fst h)
    rw [← he]
    simp only [getP] at h1
    rw [h1.2]
    exact prefOf_refl path
  · rw [if_neg h1] at h
    by_cases h2 : 0 < searchIdx pset path ∧
        ((getP pset (searchIdx pset path - 1) ++ slash).isPrefixOf path = true)
    · rw [if_pos h2] at h
      have he : pset.getD (searchIdx pset path - 1) dfltPC = e :=
        Option.some.inj (congrArg Prod.fst h)
      rw [← he]
      exact prefOf_of_append_prefOf h2.2
    · rw [if_neg h2] at h
      obtain ⟨j1, _, _, _⟩ :=
        slowScan_spec path (pset.take (searchIdx pset path)) (none, [], path.length)
          (Or.inl ⟨rfl, rfl⟩)
      have hfst : (slowScan path (pset.take (searchIdx pset path)) (none, [], path.length)).1
          = some e := congrArg Prod.fst h
      rcases j1 with ⟨hn, _⟩ | ⟨b0, hb0, hg, _, _⟩
      · rw [hfst] at hn
        exact absurd hn (by simp)
      · have hbe : b0 = e := by
          rw [hfst] at hb0
          exact (Option.some.inj hb0).symm
        rw [← hbe]
        exact hg.1

/-- C1 witness: the prefix-soundness theorem applied at entry `/abc`, request `/abcd`. -/
theorem c1_match_pref_w : (str "/abc").isPrefixOf (str "/abcd") = true :=
  c1_match_pref [pcAbc] (str "/abcd") pcAbc (str "d") (by decide)

/-- C1 counterexample: with entry `/abc` configured, resolving `/abcd` DOES
return `/abc` (with subpath `d`) although `/abc` is not followed by a `/`
boundary in the request and the request is not `/abc` exactly. -/
theorem c1_cex :
    find [pcAbc] (str "/abcd") = (some pcAbc, str "d") ∧
    (str "/abc" ++ slash).isPrefixOf (str "/abcd") = false ∧
    str "/abcd" ≠ str "/abc" := by decide

/-- C2 (amended): for an entry with non-empty stored path `p` and a non-empty
suffix `s`, when no other configured path longer than `p` is a bare prefix of
`p ++ "/" ++ s` and none equals it, resolution returns that entry, with subpath
`s` (fast path) or `"/" ++ s` (fallback scan keeps the separator). -/
theorem c2_suffix (pset : List pathConfig) (e : pathConfig) (s : Str)
    (hsort : sortedLtB pset = true) (hmem : e ∈ pset) (hpe : e.path ≠ []) (_hs : s ≠ [])
    (hnx : ∀ e', e' ∈ pset → e'.path ≠ e.path ++ slash ++ s)
    (hmax : ∀ e', e' ∈ pset → e'.path.isPrefixOf (e.path ++ slash ++ s) = true →
      e'.path.length ≤ e.path.length) :
    find pset (e.path ++ slash ++ s) = (some e, s) ∨
    find pset (e.path ++ slash ++ s) = (some e, slash ++ s) := by
  have hpref : e.path.isPrefixOf (e.path ++ slash ++ s) = true := by
    rw [List.append_assoc]
    exact prefOf_append _ _
  have hpos : 0 < e.path.length := List.length_pos.mpr hpe
  have h := find_best pset (e.path ++ slash ++ s) hsort hnx e hmem hpref hpos hmax
  have hdrop1 : (e.path ++ slash ++ s).drop e.path.length = slash ++ s := by
    rw [List.append_assoc]
    exact List.drop_left _ _
  have hdrop2 : (e.path ++ slash ++ s).drop (e.path.length + 1) = s := by
    have hl : (e.path ++ slash).length = e.path.length + 1 := by
      simp [slash]
    rw [← hl]
    exact List.drop_left _ _
  rcases h with h | ⟨_, h⟩
  · right
    rw [h, hdrop1]
  · left
    rw [h, hdrop2]

/-- C2 witness: entries `/a`, `/a!`; request `/a` + `/` + `c` resolves to the
`/a` entry with subpath `c` or `/c` (here: `/c`). -/
theorem c2_suffix_w :
    find [pcA, pcABang] (str "/a" ++ slash ++ str "c") = (some pcA, str "c") ∨
    find [pcA, pcABang] (str "/a" ++ slash ++ str "c") = (some pcA, slash ++ str "c") :=
  c2_suffix [pcA, pcABang] pcA (str "c") (by decide) (by decide) (by decide) (by decide)
    (by decide) (by decide)

/-- C2 counterexample: entries `/a` and `/a!`; request `/a/c` = `/a` + `/` + `c`.
No configured path is a prefix-ancestor of the request other than `/a` (and no
longer path is even a bare prefix), yet the returned subpath is `/c`, not `c`. -/
theorem c2_cex :
    find [pcA, pcABang] (str "/a/c") = (some pcA, str "/c") ∧
    str "/c" ≠ str "c" ∧
    (∀ e, e ∈ [pcA, pcABang] → (str "/a").length < e.path.length →
      e.path.isPrefixOf (str "/a/c") = false) := by decide

/-- C3 (amended): with no exact match, among all entries whose stored path is a
non-empty strict bare prefix of the request — a `/` boundary is NOT required —
`find` returns the one with the longest path (equivalently the shortest
subpath); the subpath drops the separator only when the fast path fired.
Concretely, entries `/a`, `/a/b` with request `/a/b/c` give `/a/b`, subpath `c`. -/
theorem c3_longest_wins (pset : List pathConfig) (path : Str)
    (hsort : sortedLtB pset = true)
    (hnx : ∀ e, e ∈ pset → e.path ≠ path)
    (estar : pathConfig) (hmem : estar ∈ pset)
    (hpref : estar.path.isPrefixOf path = true)
    (hpos : 0 < estar.path.length)
    (hmax : ∀ e, e ∈ pset → e.path.isPrefixOf path = true →
      e.path.length ≤ estar.path.length) :
    find pset path = (some estar, path.drop estar.path.length) ∨
    ((estar.path ++ slash).isPrefixOf path = true ∧
      find pset path = (some estar, path.drop (estar.path.length + 1))) :=
  find_best pset path hsort hnx estar hmem hpref hpos hmax

/-- C3 witness: entries `/a` and `/a/b`, request `/a/b/c`: the longest-prefix
entry `/a/b` wins (the fast path fires, subpath `c`). -/
theorem c3_longest_wins_w :
    find [pcA, pcAB] (str "/a/b/c") = (some pcAB, (str "/a/b/c").drop pcAB.path.length) ∨
    ((pcAB.path ++ slash).isPrefixOf (str "/a/b/c") = true ∧
      find [pcA, pcAB] (str "/a/b/c") = (some pcAB, (str "/a/b/c").drop (pcAB.path.length + 1))) :=
  c3_longest_wins [pcA, pcAB] (str "/a/b/c") (by decide) (by decide) pcAB (by decide)
    (by decide) (by decide) (by decide)

/-- C3 counterexample: entries `/a` and `/a/b`, request `/a/bc`.  The only
prefix-ancestor (boundary match) is `/a`, yet resolution returns `/a/b` — a
bare prefix without a `/` boundary — with subpath `c`, so selection is not
among prefix-ancestors. -/
theorem c3_cex :
    find [pcA, pcAB] (str "/a/bc") = (some pcAB, str "c") ∧
    (str "/a" ++ slash).isPrefixOf (str "/a/bc") = true ∧
    (str "/a/b" ++ slash).isPrefixOf (str "/a/bc") = false ∧
    str "/a/b" ≠ str "/a/bc" := by decide

/-- C4 (amended): the build is not atomic: `InitHandler` mutates the published
global handler in place — the host is overwritten before any entry validation
(and validated entries are appended to the live path set), so a failed build
attempt leaves a partially mutated state rather than the prior snapshot. -/
theorem c4_host_overwritten (h : Handler) (c : config) :
    (initHandler h c).2.host = c.host := by
  have hfin : ∀ n : Int, (initFinish { h with host := c.host } n c).2.host = c.host := by
    intro n
    rcases hlp : loopPaths h.paths c.paths with ⟨o, ps⟩
    cases o with
    | some err => rw [initFinish_err { h with host := c.host } n c err ps hlp]
    | none => rw [initFinish_ok { h with host := c.host } n c ps hlp]
  rcases hca : c.cacheAge with _ | n
  · rw [initHandler_none h c hca]
    exact hfin _
  · by_cases hneg : n < 0
    · rw [initHandler_someNeg h c n hca hneg]
    · rw [initHandler_someNonneg h c n hca hneg]
      exact hfin _

/-- C4 counterexample: from a prior good state (host `old`), a config with host
`new` and an invalid entry makes `InitHandler` return an error, yet the
published state now has host `new`: the prior snapshot was corrupted. -/
theorem c4_cex :
    (initHandler ⟨str "old", str "cc", [pcAbc]⟩
      ⟨str "new", none, [(str "/x", ⟨[], [], []⟩)]⟩).1.isSome = true ∧
    (initHandler ⟨str "old", str "cc", [pcAbc]⟩
      ⟨str "new", none, [(str "/x", ⟨[], [], []⟩)]⟩).2.host = str "new" ∧
    str "new" ≠ str "old" := by decide

/-- C5 (amended): there is no empty-repo check; an entry with an empty repo
fails the build only via VCS inference, i.e. when its `vcs` field is also
empty (with an explicit valid vcs an empty repo is accepted, see the
counterexample). -/
theorem c5_empty_repo_no_vcs (h : Handler) (c : config)
    (hex : ∃ pe, pe ∈ c.paths ∧ pe.2.repo = [] ∧ pe.2.vcs = []) :
    (initHandler h c).1.isSome = true := by
  obtain ⟨pe, hpe, hr, hv⟩ := hex
  have herr : buildEntry pe.1 pe.2 = Except.error (buildErr.cannotInferVCS pe.1 pe.2.repo) :=
    buildEntry_empty pe.1 pe.2 hr hv
  have hload : ∀ acc, (loopPaths acc c.paths).1.isSome = true :=
    fun acc => loopPaths_some c.paths acc ⟨pe, hpe, _, herr⟩
  have hfin : ∀ n : Int, (initFinish { h with host := c.host } n c).1.isSome = true := by
    intro n
    rcases hlp : loopPaths h.paths c.paths with ⟨o, ps⟩
    cases o with
    | none =>
      exfalso
      have := hload h.paths
      rw [hlp] at this
      simp at this
    | some err =>
      rw [initFinish_err { h with host := c.host } n c err ps hlp]
      rfl
  rcases hca : c.cacheAge with _ | n
  · rw [initHandler_none h c hca]
    exact hfin _
  · by_cases hneg : n < 0
    · rw [initHandler_someNeg h c n hca hneg]
      rfl
    · rw [initHandler_someNonneg h c n hca hneg]
      exact hfin _

/-- C5 witness: a config whose only entry has empty repo and empty vcs fails. -/
theorem c5_empty_repo_no_vcs_w :
    (initHandler handler0 ⟨[], none, [(str "/x", ⟨[], [], []⟩)]⟩).1.isSome = true :=
  c5_empty_repo_no_vcs handler0 ⟨[], none, [(str "/x", ⟨[], [], []⟩)]⟩ (by decide)

/-- C5 counterexample: an entry with an EMPTY repo but explicit `vcs: git`
builds successfully — the claimed `repoURL must be non-empty` rule is not
enforced. -/
theorem c5_cex :
    (initHandler handler0 ⟨[], none, [(str "/x", ⟨[], [], str "git"⟩)]⟩).1 = none ∧
    (∃ pe, pe ∈ (⟨[], none, [(str "/x", ⟨[], [], str "git"⟩)]⟩ : config).paths ∧
      pe.2.repo = []) := by decide

/-- C6 (amended): with no explicit vcs, VCS inference recognizes ONLY the
GitHub prefix (yielding `git`); any other repo URL — including Bitbucket-style
ones whose display template IS inferred — makes the entry invalid with a
cannot-infer-VCS error. -/
theorem c6_vcs_infer (p : Str) (e : configEntry) (hv : e.vcs = []) :
    (githubPref.isPrefixOf e.repo = true →
      buildEntry p e = Except.ok ⟨trimSuffix p slash, e.repo,
        (if e.display ≠ [] then e.display else ghDisplay e.repo), str "git"⟩) ∧
    (githubPref.isPrefixOf e.repo = false →
      buildEntry p e = Except.error (buildErr.cannotInferVCS p e.repo)) := by
  constructor
  · intro hg
    by_cases hd : e.display = [] <;> simp [buildEntry, hv, hg, hd]
  · intro hg
    by_cases hd : e.display = [] <;>
      by_cases hb : bitbucketPref.isPrefixOf e.repo <;>
        simp [buildEntry, hv, hg, hd, hb]

/-- C6 witness: a GitHub repo with no explicit vcs or display infers `git` and
the GitHub display template. -/
theorem c6_vcs_infer_w :
    buildEntry (str "/x") (⟨ghRepo, [], []⟩ : configEntry) =
      Except.ok ⟨trimSuffix (str "/x") slash, (⟨ghRepo, [], []⟩ : configEntry).repo,
        (if (⟨ghRepo, [], []⟩ : configEntry).display ≠ []
          then (⟨ghRepo, [], []⟩ : configEntry).display
          else ghDisplay (⟨ghRepo, [], []⟩ : configEntry).repo), str "git"⟩ :=
  (c6_vcs_infer (str "/x") ⟨ghRepo, [], []⟩ rfl).1 (by decide)

/-- C6 counterexample: a Bitbucket-style repo with no explicit vcs fails the
build (cannot infer VCS) although the Bitbucket prefix is recognized by
display-template inference. -/
theorem c6_cex :
    (initHandler handler0
      ⟨[], none, [(str "/x", ⟨str "https://bitbucket.org/org/x", [], []⟩)]⟩).1 =
        some (buildErr.cannotInferVCS (str "/x") (str "https://bitbucket.org/org/x")) ∧
    bitbucketPref.isPrefixOf (str "https://bitbucket.org/org/x") = true := by decide

/-- C7 (amended): after every successful build the stored entry paths are
sorted lexicographically ascending (and the configuration is only replaced,
not edited, afterwards); pairwise distinctness is NOT guaranteed — distinct
config keys can normalize to the same stored path (see the counterexample). -/
theorem c7_sorted (h : Handler) (c : config) (hok : (initHandler h c).1 = none) :
    sortedLeB (initHandler h c).2.paths = true := by
  have hfin : ∀ n : Int, (initFinish { h with host := c.host } n c).1 = none →
      sortedLeB (initFinish { h with host := c.host } n c).2.paths = true := by
    intro n hfo
    rcases hlp : loopPaths h.paths c.paths with ⟨o, ps⟩
    cases o with
    | some err =>
      rw [initFinish_err { h with host := c.host } n c err ps hlp] at hfo
      simp at hfo
    | none =>
      rw [initFinish_ok { h with host := c.host } n c ps hlp]
      exact sortPCs_sortedLe ps
  rcases hca : c.cacheAge with _ | n
  · rw [initHandler_none h c hca] at hok ⊢
    exact hfin _ hok
  · by_cases hneg : n < 0
    · rw [initHandler_someNeg h c n hca hneg] at hok
      simp at hok
    · rw [initHandler_someNonneg h c n hca hneg] at hok ⊢
      exact hfin _ hok

/-- C7 witness: a two-entry config builds into a sorted path set. -/
theorem c7_sorted_w :
    sortedLeB (initHandler handler0
      ⟨[], none, [(str "/b", ⟨ghRepo, [], []⟩), (str "/a", ⟨ghRepo, [], []⟩)]⟩).2.paths = true :=
  c7_sorted handler0 ⟨[], none, [(str "/b", ⟨ghRepo, [], []⟩), (str "/a", ⟨ghRepo, [], []⟩)]⟩
    (by decide)

/-- C7 counterexample: the distinct config keys `/a` and `/a/` both normalize
to stored path `/a`; the build succeeds and keeps both, so stored paths are
not pairwise distinct. -/
theorem c7_cex :
    (initHandler handler0
      ⟨[], none, [(str "/a", ⟨ghRepo, [], []⟩), (str "/a/", ⟨ghRepo, [], []⟩)]⟩).1 = none ∧
    (initHandler handler0
      ⟨[], none, [(str "/a", ⟨ghRepo, [], []⟩), (str "/a/", ⟨ghRepo, [], []⟩)]⟩).2.paths.map
        pathConfig.path = [str "/a", str "/a"] := by decide

/-- C9: when resolution matches nothing, `HandleImport` serves the index page
(every stored path prefixed by the effective host; the empty list when no
entries are stored) exactly when the request path is the root `/`, and
not-found for every other path; the resolver itself signals no-match as a
normal result, not an error. -/
theorem c9_dispatch (h : Handler) (reqPath reqHost : Str)
    (hnone : (find h.paths reqPath).1 = none) :
    ((handleImport h reqPath reqHost =
        Response.index (hostFn h reqHost) (h.paths.map (fun p => hostFn h reqHost ++ p.path)))
      ↔ reqPath = str "/") ∧
    (reqPath ≠ str "/" → handleImport h reqPath reqHost = Response.notFound) := by
  rcases hf : find h.paths reqPath with ⟨pc, sp⟩
  rw [hf] at hnone
  have hpc : pc = none := hnone
  subst hpc
  simp only [handleImport, hf]
  by_cases hr : reqPath = str "/"
  · subst hr
    simp
  · simp [hr]

/-- C9 witness: with no entries stored, the root request yields the index page
with an empty list, and only the root does. -/
theorem c9_dispatch_w :
    ((handleImport handler0 (str "/") (str "example.com") =
        Response.index (hostFn handler0 (str "example.com"))
          (handler0.paths.map (fun p => hostFn handler0 (str "example.com") ++ p.path)))
      ↔ str "/" = str "/") ∧
    (str "/" ≠ str "/" →
      handleImport handler0 (str "/") (str "example.com") = Response.notFound) :=
  c9_dispatch handler0 (str "/") (str "example.com") (by decide)

/-- C8: on a strictly sorted, duplicate-free entry set (the data-model
invariant), resolving an entry's own stored path returns exactly that entry
with an empty subpath, regardless of the other entries. -/
theorem c8_exact (pset : List pathConfig) (e : pathConfig)
    (hsort : sortedLtB pset = true) (hmem : e ∈ pset) :
    find pset e.path = (some e, []) := by
  obtain ⟨k, hk, hkv⟩ := getD_of_mem dfltPC hmem
  obtain ⟨hin, hbelow, habove⟩ := searchIdx_spec pset e.path (sortedLtB_le _ hsort)
  have hik : searchIdx pset e.path = k := by
    rcases Nat.lt_trichotomy (searchIdx pset e.path) k with hlt | heq | hgt
    · have h1 := habove _ (le_refl _) (by omega)
      have h2 := sortedLtB_getD pset hsort _ k hlt hk
      have h3 : getP pset k = e.path := by
        simp only [getP]
        rw [hkv]
      rw [h3] at h2
      rw [h2] at h1
      exact absurd h1 (by simp)
    · exact heq
    · have h1 := hbelow k hgt
      have h3 : getP pset k = e.path := by
        simp only [getP]
        rw [hkv]
      rw [h3, lexLt_irrefl] at h1
      exact absurd h1 (by simp)
  simp only [find, hik]
  have hcond : k < pset.length ∧ getP pset k = e.path := by
    refine ⟨hk, ?_⟩
    simp only [getP]
    rw [hkv]
  rw [if_pos hcond, hkv]

/-- C8 witness: with entries `/abc` and `/xyz`, resolving `/xyz` returns the
`/xyz` entry with an empty subpath. -/
theorem c8_exact_w : find [pcAbc, pcXyz] (str "/xyz") = (some pcXyz, []) :=
  c8_exact [pcAbc, pcXyz] pcXyz (by decide) (by decide)

/-- C10 (amended): for every sorted entry set and stored NON-EMPTY path `p`,
resolving `p ++ "/"` always matches some entry; the guarantee fails for the
empty stored path produced by the config key `/` (see the counterexample). -/
theorem c10_slash (pset : List pathConfig) (p : Str)
    (hsort : sortedLeB pset = true) (hmem : ∃ e, e ∈ pset ∧ e.path = p) (hne : p ≠ []) :
    (find pset (p ++ slash)).1.isSome = true := by
  obtain ⟨e, hemem, hep⟩ := hmem
  obtain ⟨hin, hbelow, habove⟩ := searchIdx_spec pset (p ++ slash) hsort
  simp only [find]
  by_cases h1 : searchIdx pset (p ++ slash) < pset.length ∧
      getP pset (searchIdx pset (p ++ slash)) = p ++ slash
  · rw [if_pos h1]
    rfl
  · rw [if_neg h1]
    by_cases h2 : 0 < searchIdx pset (p ++ slash) ∧
        ((getP pset (searchIdx pset (p ++ slash) - 1) ++ slash).isPrefixOf (p ++ slash) = true)
    · rw [if_pos h2]
      rfl
    · rw [if_neg h2]
      obtain ⟨k, hk, hkv⟩ := getD_of_mem dfltPC hemem
      have hlt : lexLt (getP pset k) (p ++ slash) = true := by
        simp only [getP]
        rw [hkv, hep]
        exact lexLt_append (by simp [slash])
      have hki : k < searchIdx pset (p ++ slash) := by
        by_contra hge
        push_neg at hge
        rw [habove k hge hk] at hlt
        exact absurd hlt (by simp)
      obtain ⟨j1, j2, j3, j4⟩ := slowScan_spec (p ++ slash)
        (pset.take (searchIdx pset (p ++ slash))) (none, [], (p ++ slash).length)
        (Or.inl ⟨rfl, rfl⟩)
      have hmemtake : e ∈ pset.take (searchIdx pset (p ++ slash)) := by
        have hlen2 : k < (pset.take (searchIdx pset (p ++ slash))).length := by
          rw [List.length_take]
          omega
        have := mem_of_getD _ dfltPC k hlen2
        rw [getD_take pset dfltPC _ k hki, hkv] at this
        exact this
      have hgood : goodPref (p ++ slash) e := by
        refine ⟨?_, ?_, ?_⟩
        · rw [hep]
          exact prefOf_append _ _
        · rw [hep]
          exact List.length_pos.mpr hne
        · rw [hep, List.length_append]
          simp [slash]
      obtain ⟨bf, hbf, _⟩ := j2 e hmemtake hgood
      rw [hbf]
      rfl

/-- C10 witness: for entry `/abc`, the request `/abc/` matches. -/
theorem c10_slash_w : (find [pcAbc] (str "/abc" ++ slash)).1.isSome = true :=
  c10_slash [pcAbc] (str "/abc") (by decide) (by decide) (by decide)

/-- C10 counterexample: the config with keys `/` and `.` builds successfully
into stored paths `""` and `"."`; resolving `"" ++ "/"` (the request `/`)
matches nothing and falls through to the no-match dispatch. -/
theorem c10_cex :
    (initHandler handler0
      ⟨[], none, [(str "/", ⟨ghRepo, [], []⟩), (str ".", ⟨ghRepo, [], []⟩)]⟩).1 = none ∧
    (initHandler handler0
      ⟨[], none, [(str "/", ⟨ghRepo, [], []⟩), (str ".", ⟨ghRepo, [], []⟩)]⟩).2.paths.map
        pathConfig.path = [[], str "."] ∧
    (find (initHandler handler0
      ⟨[], none, [(str "/", ⟨ghRepo, [], []⟩), (str ".", ⟨ghRepo, [], []⟩)]⟩).2.paths
        (([] : Str) ++ slash)).1 = none := by decide
